import Mathlib

/-!
Shallow embedding of the walk-decoding core of `src/algorithms.py`
(GNNome-assembly). Node ids are natural numbers; a walk is a `List Nat`.
Torch tensors of node indices are modelled as lists; edge scores (floats,
with `-inf` used for the sentinel self-loops) are modelled as
`WithBot Int` where `⊥` stands for `-inf`. Fallible tensor operations
(out-of-bounds indexing, sampling from an empty distribution) are
modelled with explicit error results.
-/

namespace GNNome

/-- Decidable equality of `Except` results, used to state and check the
concrete evaluation theorems. -/
instance {ε α : Type} [DecidableEq ε] [DecidableEq α] : DecidableEq (Except ε α)
  | .error e, .error f =>
    if h : e = f then isTrue (by rw [h]) else isFalse (by intro hh; injection hh; contradiction)
  | .error _, .ok _ => isFalse (by intro h; cases h)
  | .ok _, .error _ => isFalse (by intro h; cases h)
  | .ok a, .ok b =>
    if h : a = b then isTrue (by rw [h]) else isFalse (by intro hh; injection hh; contradiction)

/-! ### Walk sanitizer: `extract_repetitive_pattern` (lines 32-39) and
`extract_non_duplicate_walk` (lines 42-77) of `src/algorithms.py`. -/

/-- Model of `extract_repetitive_pattern(idx_duplicate, val_duplicate)`:
walk along `idx_duplicate`, consuming each value from the multiset
`val_duplicate` (Python `list.remove`, modelled by `List.erase`);
stop at the first value not present.  Returns the matched prefix and
the remaining duplicate values. -/
def extract_repetitive_pattern : List Nat → List Nat → List Nat × List Nat
  | [], vals => ([], vals)
  | i :: rest, vals =>
    if i ∈ vals then
      let r := extract_repetitive_pattern rest (vals.erase i)
      (i :: r.1, r.2)
    else ([], vals)

/-- Model of `extract_non_duplicate_walk(walk_in)`.  A length-1 input is an
error: `walk_in.squeeze()` turns a shape-`(1,)` tensor into a 0-dimensional
tensor, and `walk_in.size(0)` on line 49 then raises (`IndexError`).
Otherwise: if no value of the walk is a singleton, return `[]`; if the
singleton-valued positions are not a contiguous index range, return `[]`;
otherwise stitch reversed-left flank pattern + central singleton run +
right flank pattern and return it provided its length equals the number
of distinct values of the input, else `[]`. -/
def extract_non_duplicate_walk (walk : List Nat) : Except Unit (List Nat) :=
  if walk.length = 1 then .error ()
  else
    let uniq := walk.dedup
    let valNonDup := uniq.filter (fun v => walk.count v == 1)
    if valNonDup.isEmpty then .ok []
    else
      let idxNonDup := (List.range walk.length).filter
        (fun p => walk.count (walk.getD p 0) == 1)
      let s := idxNonDup.headD 0
      let e := idxNonDup.getLastD 0
      if valNonDup.length = e - s + 1 then
        let valDup := uniq.filter (fun v => !(walk.count v == 1))
        let central := walk.filter (fun v => walk.count v == 1)
        let cs := walk.indexOf (central.headD 0)
        let ce := walk.indexOf (central.getLastD 0) + 1
        let lp := extract_repetitive_pattern ((walk.take cs).reverse) valDup
        let rp := extract_repetitive_pattern (walk.drop ce) lp.2
        let walkOut := lp.1.reverse ++ central ++ rp.1
        if walkOut.length = uniq.length then .ok walkOut else .ok []
      else .ok []

/-! ### Graph model and entry transformation of `parallel_greedy_decoding`
(lines 94-102): remove existing self-loops, append one self-loop per node
with score `-inf` (modelled as `⊥`). -/

/-- Edge scores: real-valued confidences with `-inf`; modelled as
`WithBot Int` (`⊥` = `-inf`). -/
abbrev Score := WithBot Int

/-- An edge `(src, dst, score)` after score annotation. -/
abbrev Edge := Nat × Nat × Score

/-- The input overlap graph: `n` nodes `0..n-1` and a scored edge list. -/
structure Graph where
  n : Nat
  edges : List (Nat × Nat × Int)

/-- Model of lines 99-102: `remove_self_loop`, then `add_edges(self, self)`
with the appended edges' scores set to `-inf`. -/
def selfLooped (g : Graph) : List Edge :=
  (g.edges.filter (fun e => !(e.1 == e.2.1))).map
      (fun e => (e.1, e.2.1, ((e.2.2 : Int) : Score)))
    ++ (List.range g.n).map (fun i => (i, i, (⊥ : Score)))

/-! ### Greedy successor tables (`greedy_message_func` / `greedy_reduce_func`,
lines 13-29, invoked through `update_all` on the reversed and the original
sub-graph, lines 147-150 and 174-176).  `torch.max` returns the index of the
first maximal entry, and a node's mailbox lists its incident edges in edge
order, so the table maps each node to the neighbour of its first
maximum-score incident edge. -/

/-- First maximal element of a candidate list `(neighbour, score)`:
a later candidate replaces the current best only if strictly greater
(`torch.max` keeps the first maximal index). -/
def pickFirstMax : List (Nat × Score) → Option (Nat × Score)
  | [] => none
  | (j, s) :: rest =>
    match pickFirstMax rest with
    | none => some (j, s)
    | some (j2, s2) => if s < s2 then some (j2, s2) else some (j, s)

/-- Forward greedy table (`dst_greedy_forward`): for node `i`, the
out-neighbour reached by the maximum-score outgoing edge of `i`
(the reduction runs on the reversed graph, so incoming edges of the
reversed graph are outgoing edges of the sub-graph). -/
def fwdSucc (edges : List Edge) (i : Nat) : Nat :=
  match pickFirstMax (edges.filterMap
      (fun e => if e.1 == i then some (e.2.1, e.2.2) else none)) with
  | some js => js.1
  | none => i

/-- Backward greedy table (`dst_greedy_backward`): for node `i`, the
in-neighbour of the maximum-score incoming edge of `i`. -/
def bwdSucc (edges : List Edge) (i : Nat) : Nat :=
  match pickFirstMax (edges.filterMap
      (fun e => if e.2.1 == i then some (e.1, e.2.2) else none)) with
  | some js => js.1
  | none => i

/-! ### One routing phase (forward: lines 151-169; backward: lines 177-196).
The preallocated step buffer `torch.zeros(nb_paths, n_sub_g//2)` is
modelled per path as the written prefix (a write at column `c` of a
width-`W` buffer is in bounds iff `c < W`); for the periodic cycle check,
`torch.unique` runs over the whole padded row, reconstructed by
`fullRow`. -/

/-- A buffer row padded with the zeros the buffer was preallocated with. -/
def fullRow (W : Nat) (r : List Nat) : List Nat :=
  r ++ List.replicate (W - r.length) 0

/-- Model of lines 165-168 (and 192-195): `flag_cycles` is `True` (= 1)
when the check starts, each walk whose distinct-node count over the full
buffer row fell behind the step count adds 1, and the phase continues
only if the accumulated value is `< nb_paths`. -/
def cycleFlag (P W : Nat) (rows : List (List Nat)) (nb : Nat) : Bool :=
  decide (1 + rows.countP (fun r => decide ((fullRow W r).dedup.length < nb)) < P)

/-- Number of stuck walks: paths whose current node equals its greedy
successor (the `-inf` self-loop sentinel), line 163/190. -/
def countStuck (curs next : List Nat) : Nat :=
  (List.zip curs next).countP (fun p => p.1 == p.2)

/-- Result of one routing phase: either the final step count with the
(untruncated) written buffer rows, or the step at which an out-of-bounds
buffer write raised `IndexError`. -/
inductive PhaseOut where
  | ok (nbSteps : Nat) (rows : List (List Nat))
  | indexError (nbSteps : Nat)
deriving DecidableEq, Repr

/-- Step count at which a phase ended (normally or with an indexing error). -/
def PhaseOut.steps : PhaseOut → Nat
  | .ok s _ => s
  | .indexError s => s

/-- The stepping loop of one phase (lines 158-168 / 185-195).  `succ` is the
greedy successor table, `mp` the sub-graph-to-original index map, `P` the
batch size, `W = n_sub_g//2` the buffer width.  Iteration: increment
`nb_steps`, advance every walk, write the new (original-graph) nodes into
column `nb_steps` — out of bounds iff `nb_steps ≥ W` — then recompute the
dead-end flag, and every 100 steps the cycle flag; continue while both
flags hold and `nb_steps < W`.  `fuel` only drives the recursion; the loop
guard `nb < W` bounds the iterations, and callers pass `fuel = W`. -/
def runPhaseAux (succ mp : Nat → Nat) (P W : Nat) :
    Nat → List Nat → List (List Nat) → Nat → PhaseOut
  | 0, _, rows, nb => .ok nb rows
  | fuel + 1, curs, rows, nb =>
    if nb < W then
      let nb2 := nb + 1
      let next := curs.map succ
      if nb2 < W then
        let rows2 := List.zipWith (fun r x => r ++ [mp x]) rows next
        let flagDead := decide (countStuck curs next < P)
        let flagCyc := if nb2 % 100 = 0 then cycleFlag P W rows2 nb2 else true
        if flagDead && flagCyc then runPhaseAux succ mp P W fuel next rows2 nb2
        else .ok nb2 rows2
      else .indexError nb2
    else .ok nb rows

/-- One full phase (lines 151-169 / 177-196): allocate the width
`n_sub_g//2` buffer, write the start nodes into column 0 (an `IndexError`
already here when the width is 0, i.e. `n_sub_g ≤ 1`), then run the
stepping loop. -/
def runPhase (succ mp : Nat → Nat) (P nSub : Nat) (inits : List Nat) : PhaseOut :=
  let W := nSub / 2
  if 0 < W then
    runPhaseAux succ mp P W W inits (inits.map (fun c => [mp c])) 0
  else .indexError 0

/-! ### Sub-graph extraction (lines 117-134): induced sub-graph on the
non-consumed nodes; `dgl.node_subgraph` relabels the kept nodes (listed in
ascending order) to `0..n_sub-1` and preserves edge order, and
`map_subg_to_g` is the kept-node list itself. -/

/-- Kept (non-consumed) original node ids, ascending (lines 122-125). -/
def keepListOf (n : Nat) (consumed : List Nat) : List Nat :=
  (List.range n).filter (fun i => !(consumed.contains i))

/-- Induced sub-graph edge list with endpoints relabelled to their rank in
`keep` (preserving edge order and scores). -/
def subEdgesOf (edges : List Edge) (keep : List Nat) : List Edge :=
  edges.filterMap (fun e =>
    if keep.contains e.1 && keep.contains e.2.1 then
      some (keep.indexOf e.1, keep.indexOf e.2.1, e.2.2)
    else none)

/-! ### `compute_walks` (lines 80-91) and candidate selection. -/

/-- Model of `compute_walks`: sanitize every raw path; a sanitizer
exception aborts the whole computation. -/
def compute_walks : List (List Nat) → Except Unit (List (List Nat))
  | [] => .ok []
  | p :: ps => do
    let w ← extract_non_duplicate_walk p
    let ws ← compute_walks ps
    .ok (w :: ws)

/-- Model of `torch.max(v, dim=0)[0]` on a list of lengths. -/
def maxLen (l : List Nat) : Nat := l.foldr Nat.max 0

/-- Model of `torch.argmax`: index of the first maximal entry. -/
def argmaxIdx (l : List Nat) : Nat := l.indexOf (maxLen l)

/-- Errors a decoding run can raise (the Python code raises exceptions):
sampling from an empty/degenerate edge distribution, an out-of-bounds
step-buffer write, a sanitizer exception, or (a model artifact) running
out of recursion fuel for the unbounded `while True` loop. -/
inductive DErr where
  | fuelOut | sampleError | indexError | sanitizeError
deriving DecidableEq, Repr

/-- One iteration of the `while True` loop of `parallel_greedy_decoding`
(lines 110-223), excluding the bookkeeping of the running lists: build the
remaining sub-graph from the consumed nodes, sample `P` seed edges (the
categorical sample is replaced by the oracle `oracle iter k`, reduced mod
the edge count: every edge has positive probability after the `1e-9`
clipping, so the oracle ranges over exactly the support), compute both
greedy tables, run the forward phase from the seeds' destinations and the
backward phase from their sources, truncate to the executed steps, flip
the backward rows, concatenate, and sanitize every candidate, yielding
the list of cleaned candidate walks. -/
def decodePaths (edges : List Edge) (n P : Nat) (oracle : Nat → Nat → Nat)
    (iter : Nat) (bothStrands : List (List Nat)) :
    Except DErr (List (List Nat)) :=
  let consumed := bothStrands.flatten
  let keep := keepListOf n consumed
  let nSub := keep.length
  let subE := subEdgesOf edges keep
  if subE.isEmpty || P == 0 then .error .sampleError
  else
    let seeds := (List.range P).map
      (fun k => subE.getD (oracle iter k % subE.length) (0, 0, ⊥))
    let mp := fun i => keep.getD i 0
    let fwdT := (List.range nSub).map (fwdSucc subE)
    let bwdT := (List.range nSub).map (bwdSucc subE)
    match runPhase (fun i => fwdT.getD i i) mp P nSub (seeds.map (fun e => e.2.1)) with
    | .indexError _ => .error .indexError
    | .ok sF rowsF =>
      match runPhase (fun i => bwdT.getD i i) mp P nSub (seeds.map (fun e => e.1)) with
      | .indexError _ => .error .indexError
      | .ok sB rowsB =>
        let paths := List.zipWith (fun b f => b ++ f)
          (rowsB.map (fun r => (r.take sB).reverse)) (rowsF.map (fun r => r.take sF))
        match compute_walks paths with
        | .error _ => .error .sanitizeError
        | .ok walks => .ok walks

/-- Candidate selection (lines 205-222): pick the first candidate of
maximal cleaned length (`torch.argmax` returns the first maximal index),
record `walks_length[idx_max]`, and evaluate the stopping criterion
`len_best_walk < len_threshold`. -/
def decodeStep (edges : List Edge) (n P thr : Nat) (oracle : Nat → Nat → Nat)
    (iter : Nat) (bothStrands : List (List Nat)) :
    Except DErr (List Nat × Nat × Bool) :=
  match decodePaths edges n P oracle iter bothStrands with
  | .error e => .error e
  | .ok walks =>
    let lens := walks.map List.length
    let idxMax := argmaxIdx lens
    .ok (walks.getD idxMax [], lens.getD idxMax 0, decide (maxLen lens < thr))

/-- The `while True` loop (lines 110-223): each iteration appends the
selected walk to `all_walks`, the walk and its strand-partner image
(`n ^^^ 1`) to `all_walks_both_strands`, and its length to `all_walks_len`
— all BEFORE the stopping criterion is checked — then either returns the
accumulated lists or continues. -/
def decodeLoop (edges : List Edge) (n P thr : Nat) (oracle : Nat → Nat → Nat) :
    Nat → Nat → List (List Nat) → List (List Nat) → List Nat →
    Except DErr (List (List Nat) × List Nat)
  | 0, _, _, _, _ => .error .fuelOut
  | fuel + 1, iter, allWalks, bothStrands, allLens =>
    match decodeStep edges n P thr oracle iter bothStrands with
    | .error e => .error e
    | .ok (best, lenB, stop) =>
      if stop then .ok (allWalks ++ [best], allLens ++ [lenB])
      else
        decodeLoop edges n P thr oracle fuel (iter + 1)
          (allWalks ++ [best])
          (bothStrands ++ [best, best.map (fun x => x ^^^ 1)])
          (allLens ++ [lenB])

/-- Model of `parallel_greedy_decoding(original_g, nb_paths, len_threshold)`:
self-loop rewriting at entry, then the contig-extraction loop starting
from empty running lists (`idx_contig` starts at 1). -/
def parallel_greedy_decoding (g : Graph) (nbPaths lenThreshold : Nat)
    (oracle : Nat → Nat → Nat) (fuel : Nat) :
    Except DErr (List (List Nat) × List Nat) :=
  decodeLoop (selfLooped g) g.n nbPaths lenThreshold oracle fuel 1 [] [] []

/-- Two walks are strand-closure disjoint: no node of the first, nor its
strand partner `n ^^^ 1`, occurs in the second. -/
def strandDisjoint (w1 w2 : List Nat) : Prop :=
  ∀ x ∈ w1, x ∉ w2 ∧ x ^^^ 1 ∉ w2

/-- Concrete routing-phase input used to exercise the periodic cycle
check: a path graph `0 → 1 → ... → 101` inside a sub-graph of 204 nodes
(width of the step buffer is `204 // 2 = 102`; all other nodes only carry
their sentinel self-loops), every real edge scoring 5. -/
def c4edges : List Edge :=
  ((List.range 101).map (fun i => (i, i + 1, ((5 : Int) : Score))))
    ++ ((List.range 204).map (fun i => (i, i, (⊥ : Score))))

/-- The forward greedy successor table of `c4edges`, computed by the
greedy reduction over every node, as the code computes `dst_greedy`
once per phase. -/
def c4T : List Nat := (List.range 204).map (fwdSucc c4edges)

/-! ### Ground-truth component merge: the `while changes` pass of
`get_components` (lines 423-453 of `src/algorithms.py`).  Components are
Python sets of node ids (`Finset Nat`); `sorted(components, key=len)` is a
stable ascending sort by cardinality; only the smallest component
(`components[0]`) is tested against each larger one, and a pair is joined
iff some node of the smallest has, among its out-neighbours inside the
larger component, a joint node that itself has at least one
out-neighbour. -/

/-- Stable insertion (by cardinality) used to model Python `sorted`. -/
def insertByCard (x : Finset Nat) : List (Finset Nat) → List (Finset Nat)
  | [] => [x]
  | y :: ys => if x.card ≤ y.card then x :: y :: ys else y :: insertByCard x ys

/-- Stable ascending sort by cardinality (`sorted(components, key=len)`). -/
def sortByCard (l : List (Finset Nat)) : List (Finset Nat) :=
  l.foldr insertByCard []

/-- The per-pair merge test (lines 431-445): some node of `comp` has a
nonempty out-neighbour intersection with `larger` containing a joint with
further out-edges (`skip = False`).  The Python loops iterate over sets
in unspecified order, but the merge decision they compute is exactly
this existential, so it is modelled as a decidable bounded existential. -/
def joinable (nbrs : Nat → List Nat) (comp larger : Finset Nat) : Bool :=
  decide (∃ node ∈ comp,
    ((nbrs node).any (fun joint => decide (joint ∈ larger) && !(nbrs joint).isEmpty)) = true)

/-- First larger component (in sorted order, `i = 1, 2, ...`) that the
smallest component merges with (`break` on the first success). -/
def findJoin (nbrs : Nat → List Nat) (comp : Finset Nat) :
    List (Finset Nat) → Option (Finset Nat)
  | [] => none
  | l :: ls => if joinable nbrs comp l then some l else findJoin nbrs comp ls

/-- One round of the `while changes` loop: re-sort, test `components[0]`
against each larger component, and on success remove both (by value, as
`list.remove`) and append the union.  Returns the new component list and
the `changes` flag.  (`components[0]` on an empty list would raise in
Python; the model returns it unchanged — not exercised here.) -/
def mergeRound (nbrs : Nat → List Nat) (comps : List (Finset Nat)) :
    List (Finset Nat) × Bool :=
  let sorted := sortByCard comps
  match sorted with
  | [] => ([], false)
  | comp :: rest =>
    match findJoin nbrs comp rest with
    | none => (comp :: rest, false)
    | some larger =>
      ((((comp :: rest).erase comp).erase larger) ++ [comp ∪ larger], true)

/-- The `while changes` loop; every merge shortens the list by one, so
`comps.length` rounds of fuel always reach the fixed point. -/
def mergeLoop (nbrs : Nat → List Nat) : Nat → List (Finset Nat) → List (Finset Nat)
  | 0, comps => comps
  | fuel + 1, comps =>
    match mergeRound nbrs comps with
    | (comps2, false) => comps2
    | (comps2, true) => mergeLoop nbrs fuel comps2

/-- The component-merge pass of `get_components` (lines 423-453), applied
to the components produced by the BFS seeding phase. -/
def get_components_merge (nbrs : Nat → List Nat) (comps : List (Finset Nat)) :
    List (Finset Nat) :=
  mergeLoop nbrs comps.length comps

end GNNome
section ThmSanitizer

namespace GNNome

/-! ## Lemmas about the walk sanitizer -/

/-- The matched flank pattern is drawn from the candidate flank. -/
theorem erp_fst_subset (l : List Nat) : ∀ v, ∀ x ∈ (extract_repetitive_pattern l v).1, x ∈ l := by
  induction l with
  | nil => intro v x hx; simp [extract_repetitive_pattern] at hx
  | cons a t ih =>
    intro v x hx
    simp only [extract_repetitive_pattern] at hx
    by_cases h : a ∈ v
    · rw [if_pos h] at hx
      rcases List.mem_cons.mp hx with rfl | hx
      · exact List.mem_cons_self ..
      · exact List.mem_cons_of_mem _ (ih _ _ hx)
    · rw [if_neg h] at hx
      simp at hx

/-- Every node of a sanitized walk occurs in the raw walk. -/
theorem extract_subset (w out : List Nat) (h : extract_non_duplicate_walk w = .ok out) :
    ∀ x ∈ out, x ∈ w := by
  unfold extract_non_duplicate_walk at h
  simp only [] at h
  split at h
  · cases h
  · split at h
    · cases h; intro x hx; cases hx
    · split at h
      · split at h
        · cases h
          intro x hx
          rcases List.mem_append.mp hx with hx | hx
          · rcases List.mem_append.mp hx with hx | hx
            · have h1 := erp_fst_subset _ _ _ (List.mem_reverse.mp hx)
              exact List.mem_of_mem_take (List.mem_reverse.mp h1)
            · exact List.mem_of_mem_filter hx
          · exact List.mem_of_mem_drop (erp_fst_subset _ _ _ hx)
        · cases h; intro x hx; cases hx
      · cases h; intro x hx; cases hx

end GNNome

end ThmSanitizer
section ThmSanitizer2

namespace GNNome

/-- Default-independence of `getLastD` on a nonempty list. -/
theorem getLastD_indep (b d e : Nat) (t : List Nat) :
    (b :: t).getLastD d = (b :: t).getLastD e := by
  rw [List.getLastD_cons, List.getLastD_cons]

/-- In a duplicate-free list, the first index of the last element is the
last position. -/
theorem indexOf_getLastD_of_nodup :
    ∀ (a : Nat) (l : List Nat), (a :: l).Nodup →
      (a :: l).indexOf ((a :: l).getLastD 0) = l.length := by
  intro a l
  induction l generalizing a with
  | nil => intro _; simp [List.getLastD]
  | cons b t ih =>
    intro hnd
    have hlast : ((a :: b :: t).getLastD 0) = ((b :: t).getLastD 0) := by
      rw [List.getLastD_cons, getLastD_indep b a 0 t]
    rw [hlast]
    have hmem : (b :: t).getLastD 0 ∈ b :: t := by
      rw [List.getLastD_cons]
      exact List.getLastD_mem_cons t b
    have hne : a ≠ (b :: t).getLastD 0 := by
      intro he
      exact (List.nodup_cons.mp hnd).1 (he ▸ hmem)
    rw [List.indexOf_cons_ne _ hne, ih b (List.nodup_cons.mp hnd).2]
    simp

end GNNome

end ThmSanitizer2
section ThmSanitizer3

namespace GNNome

/-- The head default of `List.range`. -/
theorem range_headD (n : Nat) : (List.range n).headD 0 = 0 := by
  cases n with
  | zero => rfl
  | succ m => rw [List.range_succ_eq_map]; rfl

/-- The last default of `List.range`. -/
theorem range_getLastD (n : Nat) : (List.range n).getLastD 0 = n - 1 := by
  cases n with
  | zero => rfl
  | succ m => rw [List.range_succ, List.getLastD_concat]; rfl

/-- On a duplicate-free walk of length other than 1, the sanitizer is the
identity: every value is a singleton, the central run is the whole walk,
both flank patterns are empty, and the final length check passes. -/
theorem extract_id_of_nodup (w : List Nat) (hnd : w.Nodup) (hlen : w.length ≠ 1) :
    extract_non_duplicate_walk w = .ok w := by
  rcases w with _ | ⟨a, t⟩
  · decide
  · have hcount : ∀ x ∈ a :: t, (a :: t).count x = 1 :=
      fun x hx => List.count_eq_one_of_mem hnd hx
    have hbeq : ∀ x ∈ a :: t, ((a :: t).count x == 1) = true := by
      intro x hx
      simp [hcount x hx]
    simp only [extract_non_duplicate_walk]
    rw [if_neg hlen, List.dedup_eq_self.mpr hnd, List.filter_eq_self.mpr hbeq]
    rw [if_neg (by simp : ¬((a :: t).isEmpty = true))]
    have hidx : (List.range (a :: t).length).filter
        (fun p => (a :: t).count ((a :: t).getD p 0) == 1) = List.range (a :: t).length := by
      apply List.filter_eq_self.mpr
      intro p hp
      have hplt : p < (a :: t).length := List.mem_range.mp hp
      rw [List.getD_eq_getElem _ _ hplt]
      exact hbeq _ (List.getElem_mem hplt)
    rw [hidx, range_headD, range_getLastD]
    rw [if_pos (by simp)]
    have hvaldup : (a :: t).filter (fun v => !((a :: t).count v == 1)) = [] := by
      apply List.filter_eq_nil_iff.mpr
      intro x hx
      simp [hcount x hx]
    rw [hvaldup]
    rw [List.headD_cons, List.indexOf_cons_self, indexOf_getLastD_of_nodup a t hnd]
    have hdrop : (a :: t).drop (t.length + 1) = [] :=
      List.drop_eq_nil_of_le (by simp)
    rw [List.take_zero, List.reverse_nil, hdrop]
    simp [extract_repetitive_pattern]

end GNNome

end ThmSanitizer3
section ThmSanitizer4

namespace GNNome

/-- When no value of the raw walk is a singleton, the sanitizer signals
the no-central-part case by returning the empty walk. -/
theorem extract_all_duplicate (w : List Nat) (h : ∀ x ∈ w, w.count x ≠ 1) :
    extract_non_duplicate_walk w = .ok [] := by
  have hlen : w.length ≠ 1 := by
    intro hl
    rcases List.length_eq_one.mp hl with ⟨a, rfl⟩
    exact h a (by simp) (by simp)
  have hemp : (w.dedup.filter (fun v => w.count v == 1)).isEmpty = true := by
    rw [List.isEmpty_iff]
    apply List.filter_eq_nil_iff.mpr
    intro x hx
    simp [h x (List.mem_dedup.mp hx)]
  simp only [extract_non_duplicate_walk]
  rw [if_neg hlen, if_pos hemp]

end GNNome

end ThmSanitizer4
section ThmPhase

namespace GNNome

/-! ## Lemmas about the routing phases -/

/-- The stepping loop never runs past the step budget `W`: each iteration
requires `nb_steps < W` and increments it once. -/
theorem runPhaseAux_steps_le (succ mp : Nat → Nat) (P W : Nat) :
    ∀ fuel curs rows nb, nb ≤ W →
      (runPhaseAux succ mp P W fuel curs rows nb).steps ≤ W := by
  intro fuel
  induction fuel with
  | zero => intro curs rows nb h; exact h
  | succ f ih =>
    intro curs rows nb h
    simp only [runPhaseAux]
    split
    case isTrue hlt =>
      split
      case isTrue hlt2 =>
        split <;> split <;>
          first
            | exact ih _ _ _ (Nat.le_of_lt hlt2)
            | exact Nat.le_of_lt hlt2
      case isFalse hge => exact hlt
    case isFalse hge => exact h

/-- A phase executes at most `n_sub_g // 2` stepping iterations. -/
theorem runPhase_steps_le (succ mp : Nat → Nat) (P nSub : Nat) (inits : List Nat) :
    (runPhase succ mp P nSub inits).steps ≤ nSub / 2 := by
  simp only [runPhase]
  split
  · exact runPhaseAux_steps_le _ _ _ _ _ _ _ _ (Nat.zero_le _)
  · exact Nat.zero_le _

/-- An out-of-bounds buffer write in the stepping loop happens exactly at
column `W`: the loop guard admits `nb_steps = W - 1`, and the subsequent
increment-and-write targets column `W`. -/
theorem runPhaseAux_indexError_eq (succ mp : Nat → Nat) (P W : Nat) :
    ∀ fuel curs rows nb s,
      runPhaseAux succ mp P W fuel curs rows nb = .indexError s → s = W := by
  intro fuel
  induction fuel with
  | zero => intro curs rows nb s h; cases h
  | succ f ih =>
    intro curs rows nb s h
    simp only [runPhaseAux] at h
    split at h
    case isTrue hlt =>
      split at h
      case isTrue hlt2 =>
        split at h <;> split at h <;>
          first
            | exact ih _ _ _ _ h
            | cases h
      case isFalse hge =>
        cases h
        exact Nat.le_antisymm hlt (Nat.le_of_not_lt hge)
    case isFalse hge => cases h

/-- In a successful phase, the batch of buffer rows keeps its size. -/
theorem runPhaseAux_rows_length (succ mp : Nat → Nat) (P W : Nat) :
    ∀ fuel curs rows nb s rows2, curs.length = rows.length →
      runPhaseAux succ mp P W fuel curs rows nb = .ok s rows2 →
      rows2.length = rows.length := by
  intro fuel
  induction fuel with
  | zero => intro curs rows nb s rows2 hl h; cases h; rfl
  | succ f ih =>
    intro curs rows nb s rows2 hl h
    simp only [runPhaseAux] at h
    split at h
    case isTrue hlt =>
      split at h
      case isTrue hlt2 =>
        have hz : (List.zipWith (fun r x => r ++ [mp x]) rows (curs.map succ)).length
            = rows.length := by
          rw [List.length_zipWith, List.length_map, ← hl, Nat.min_self]
        split at h <;> split at h <;>
          first
            | (rw [ih _ _ _ _ _ (by rw [List.length_map, hz, ← hl]) h, hz])
            | (cases h; exact hz)
      case isFalse hge => cases h
    case isFalse hge => cases h; rfl

/-- A row of the batched buffer after one synchronous write. -/
theorem zipWith_append_mem (mp : Nat → Nat) :
    ∀ (rows : List (List Nat)) (next : List Nat) r,
      r ∈ List.zipWith (fun r x => r ++ [mp x]) rows next →
      ∃ r0 x, r0 ∈ rows ∧ x ∈ next ∧ r = r0 ++ [mp x] := by
  intro rows
  induction rows with
  | nil => intro next r h; simp at h
  | cons r0 rs ih =>
    intro next r h
    cases next with
    | nil => simp at h
    | cons x xs =>
      simp only [List.zipWith] at h
      rcases List.mem_cons.mp h with rfl | h
      · exact ⟨r0, x, by simp, by simp, rfl⟩
      · rcases ih xs r h with ⟨r1, y, h1, h2, h3⟩
        exact ⟨r1, y, by simp [h1], by simp [h2], h3⟩

/-- Invariant of the stepping loop: if the current nodes lie in a set `C`
closed under the greedy successor table, every buffer entry produced by a
successful phase is the `mp`-image of a node of `C`. -/
theorem runPhaseAux_rows_mem (succ mp : Nat → Nat) (P W : Nat) (C : Nat → Prop)
    (hsucc : ∀ i, C i → C (succ i)) :
    ∀ fuel curs rows nb s rows2,
      (∀ c ∈ curs, C c) →
      (∀ r ∈ rows, ∀ x ∈ r, ∃ i, C i ∧ x = mp i) →
      runPhaseAux succ mp P W fuel curs rows nb = .ok s rows2 →
      ∀ r ∈ rows2, ∀ x ∈ r, ∃ i, C i ∧ x = mp i := by
  intro fuel
  induction fuel with
  | zero => intro curs rows nb s rows2 hc hr h; cases h; exact hr
  | succ f ih =>
    intro curs rows nb s rows2 hc hr h
    simp only [runPhaseAux] at h
    split at h
    case isTrue hlt =>
      split at h
      case isTrue hlt2 =>
        have hnext : ∀ c ∈ curs.map succ, C c := by
          intro c hcm
          rcases List.mem_map.mp hcm with ⟨c0, hc0, rfl⟩
          exact hsucc c0 (hc c0 hc0)
        have hrows2 : ∀ r ∈ List.zipWith (fun r x => r ++ [mp x]) rows (curs.map succ),
            ∀ x ∈ r, ∃ i, C i ∧ x = mp i := by
          intro r hrm x hx
          rcases zipWith_append_mem mp rows (curs.map succ) r hrm with ⟨r0, y, h1, h2, rfl⟩
          rcases List.mem_append.mp hx with hx | hx
          · exact hr r0 h1 x hx
          · rcases List.mem_singleton.mp hx with rfl
            exact ⟨y, hnext y h2, rfl⟩
        split at h <;> split at h <;>
          first
            | exact ih _ _ _ _ _ hnext hrows2 h
            | (cases h; exact hrows2)
      case isFalse hge => cases h
    case isFalse hge => cases h; exact hr

/-- Phase-level membership: starting from nodes of `C`, every entry of a
successful phase's buffer rows is the `mp`-image of a node of `C`. -/
theorem runPhase_rows_mem (succ mp : Nat → Nat) (P nSub : Nat) (inits : List Nat)
    (C : Nat → Prop) (hsucc : ∀ i, C i → C (succ i)) (hinits : ∀ c ∈ inits, C c)
    (s : Nat) (rows2 : List (List Nat))
    (h : runPhase succ mp P nSub inits = .ok s rows2) :
    ∀ r ∈ rows2, ∀ x ∈ r, ∃ i, C i ∧ x = mp i := by
  simp only [runPhase] at h
  split at h
  · apply runPhaseAux_rows_mem succ mp P (nSub / 2) C hsucc _ _ _ _ _ _ hinits _ h
    intro r hrm x hx
    rcases List.mem_map.mp hrm with ⟨c, hcm, rfl⟩
    rcases List.mem_singleton.mp hx with rfl
    exact ⟨c, hinits c hcm, rfl⟩
  · cases h

/-- Phase-level row count preservation. -/
theorem runPhase_rows_length (succ mp : Nat → Nat) (P nSub : Nat) (inits : List Nat)
    (s : Nat) (rows2 : List (List Nat))
    (h : runPhase succ mp P nSub inits = .ok s rows2) :
    rows2.length = inits.length := by
  simp only [runPhase] at h
  split at h
  · have := runPhaseAux_rows_length succ mp P (nSub / 2) (nSub / 2) inits
      (inits.map (fun c => [mp c])) 0 s rows2 (by rw [List.length_map]) h
    rw [this, List.length_map]
  · cases h

end GNNome

end ThmPhase
section ThmDecodePrep

namespace GNNome

/-! ## Lemmas about sub-graph extraction and candidate selection -/

/-- Relabelled sub-graph edges have both endpoints inside the sub-graph. -/
theorem subEdgesOf_lt (edges : List Edge) (keep : List Nat) :
    ∀ e ∈ subEdgesOf edges keep, e.1 < keep.length ∧ e.2.1 < keep.length := by
  intro e he
  rcases List.mem_filterMap.mp he with ⟨e0, _, hf⟩
  split at hf
  case isTrue hc =>
    cases hf
    have h1 : e0.1 ∈ keep := by
      have := (Bool.and_eq_true _ _).mp hc
      simpa using this.1
    have h2 : e0.2.1 ∈ keep := by
      have := (Bool.and_eq_true _ _).mp hc
      simpa using this.2
    exact ⟨List.indexOf_lt_length.mpr h1, List.indexOf_lt_length.mpr h2⟩
  case isFalse => cases hf

/-- `pickFirstMax` returns an element of its candidate list. -/
theorem pickFirstMax_mem : ∀ (l : List (Nat × Score)) js, pickFirstMax l = some js → js ∈ l := by
  intro l
  induction l with
  | nil => intro js h; cases h
  | cons a t ih =>
    intro js h
    obtain ⟨j, s⟩ := a
    simp only [pickFirstMax] at h
    cases hr : pickFirstMax t with
    | none => rw [hr] at h; cases h; simp
    | some js2 =>
      obtain ⟨j2, s2⟩ := js2
      rw [hr] at h
      simp only [] at h
      by_cases hlt : s < s2
      · rw [if_pos hlt] at h
        cases h
        exact List.mem_cons_of_mem _ (ih _ hr)
      · rw [if_neg hlt] at h
        cases h
        simp

/-- The forward greedy table stays inside the sub-graph. -/
theorem fwdSucc_closure (subE : List Edge) (nSub : Nat)
    (hE : ∀ e ∈ subE, e.1 < nSub ∧ e.2.1 < nSub) (i : Nat) (hi : i < nSub) :
    fwdSucc subE i < nSub := by
  unfold fwdSucc
  cases hp : pickFirstMax (subE.filterMap
      (fun e => if e.1 == i then some (e.2.1, e.2.2) else none)) with
  | none => exact hi
  | some js =>
    have hmem := pickFirstMax_mem _ _ hp
    rcases List.mem_filterMap.mp hmem with ⟨e0, he0, hf⟩
    split at hf
    · cases hf; exact (hE e0 he0).2
    · cases hf

/-- The backward greedy table stays inside the sub-graph. -/
theorem bwdSucc_closure (subE : List Edge) (nSub : Nat)
    (hE : ∀ e ∈ subE, e.1 < nSub ∧ e.2.1 < nSub) (i : Nat) (hi : i < nSub) :
    bwdSucc subE i < nSub := by
  unfold bwdSucc
  cases hp : pickFirstMax (subE.filterMap
      (fun e => if e.2.1 == i then some (e.1, e.2.2) else none)) with
  | none => exact hi
  | some js =>
    have hmem := pickFirstMax_mem _ _ hp
    rcases List.mem_filterMap.mp hmem with ⟨e0, he0, hf⟩
    split at hf
    · cases hf; exact (hE e0 he0).1
    · cases hf

/-- Looking the greedy table list up at an in-range index gives the table
function's value. -/
theorem tableD_eq (f : Nat → Nat) (nSub i : Nat) (hi : i < nSub) :
    ((List.range nSub).map f).getD i i = f i := by
  have hlen : i < ((List.range nSub).map f).length := by
    rw [List.length_map, List.length_range]; exact hi
  rw [List.getD_eq_getElem _ _ hlen]
  simp

/-- Kept nodes are exactly the non-consumed nodes below `n`. -/
theorem keepListOf_not_consumed (n : Nat) (consumed : List Nat) :
    ∀ x ∈ keepListOf n consumed, x ∉ consumed := by
  intro x hx
  have := List.of_mem_filter hx
  simpa using this

/-- An in-range sub-graph index maps to a kept node. -/
theorem keep_getD_mem (keep : List Nat) (i : Nat) (hi : i < keep.length) :
    keep.getD i 0 ∈ keep := by
  rw [List.getD_eq_getElem _ _ hi]
  exact List.getElem_mem hi

/-- Walks produced by `compute_walks` are sanitized raw paths. -/
theorem compute_walks_mem : ∀ (ps ws : List (List Nat)), compute_walks ps = .ok ws →
    ∀ w ∈ ws, ∃ p ∈ ps, extract_non_duplicate_walk p = .ok w := by
  intro ps
  induction ps with
  | nil => intro ws h w hw; cases h; cases hw
  | cons p pt ih =>
    intro ws h w hw
    simp only [compute_walks, bind, Except.bind] at h
    cases hx : extract_non_duplicate_walk p with
    | error e => rw [hx] at h; cases h
    | ok w0 =>
      rw [hx] at h
      cases hr : compute_walks pt with
      | error e => rw [hr] at h; cases h
      | ok ws0 =>
        rw [hr] at h
        cases h
        rcases List.mem_cons.mp hw with rfl | hw
        · exact ⟨p, by simp, hx⟩
        · rcases ih ws0 hr w hw with ⟨p0, hp0, he⟩
          exact ⟨p0, List.mem_cons_of_mem _ hp0, he⟩

/-- `compute_walks` produces one cleaned walk per raw path. -/
theorem compute_walks_length : ∀ (ps ws : List (List Nat)), compute_walks ps = .ok ws →
    ws.length = ps.length := by
  intro ps
  induction ps with
  | nil => intro ws h; cases h; rfl
  | cons p pt ih =>
    intro ws h
    simp only [compute_walks, bind, Except.bind] at h
    cases hx : extract_non_duplicate_walk p with
    | error e => rw [hx] at h; cases h
    | ok w0 =>
      rw [hx] at h
      cases hr : compute_walks pt with
      | error e => rw [hr] at h; cases h
      | ok ws0 =>
        rw [hr] at h
        cases h
        simp [ih ws0 hr]

/-- A concatenated forward/backward path decomposes into its two halves. -/
theorem mem_zipWith_append :
    ∀ (bs fs : List (List Nat)) p, p ∈ List.zipWith (fun b f => b ++ f) bs fs →
      ∃ b ∈ bs, ∃ f ∈ fs, p = b ++ f := by
  intro bs
  induction bs with
  | nil => intro fs p h; simp at h
  | cons b bt ih =>
    intro fs p h
    cases fs with
    | nil => simp at h
    | cons f ft =>
      simp only [List.zipWith] at h
      rcases List.mem_cons.mp h with rfl | h
      · exact ⟨b, by simp, f, by simp, rfl⟩
      · rcases ih ft p h with ⟨b0, hb, f0, hf, he⟩
        exact ⟨b0, by simp [hb], f0, by simp [hf], he⟩

/-- The maximal length is attained on a nonempty list. -/
theorem maxLen_mem : ∀ l : List Nat, l ≠ [] → maxLen l ∈ l := by
  intro l
  induction l with
  | nil => intro h; cases h rfl
  | cons a t ih =>
    intro _
    by_cases ht : t = []
    · subst ht
      show Nat.max a 0 ∈ [a]
      have hmax : Nat.max a 0 = a := Nat.max_zero a
      rw [hmax]
      simp
    · have hm := ih ht
      show Nat.max a (maxLen t) ∈ a :: t
      by_cases hle : a ≤ maxLen t
      · have hmax : Nat.max a (maxLen t) = maxLen t := Nat.max_eq_right hle
        rw [hmax]
        exact List.mem_cons_of_mem _ hm
      · have hmax : Nat.max a (maxLen t) = a := Nat.max_eq_left (Nat.le_of_not_le hle)
        rw [hmax]
        simp

/-- The entry at the arg-max index is the maximum. -/
theorem getD_argmaxIdx (l : List Nat) (h : l ≠ []) : l.getD (argmaxIdx l) 0 = maxLen l := by
  have hm := maxLen_mem l h
  have hlt := List.indexOf_lt_length.mpr hm
  unfold argmaxIdx
  rw [List.getD_eq_getElem _ _ hlt]
  exact List.getElem_indexOf hlt

/-- The selected candidate's length is the maximal cleaned length. -/
theorem best_length_eq (walks : List (List Nat)) (hne : walks ≠ []) :
    (walks.getD (argmaxIdx (walks.map List.length)) []).length
      = maxLen (walks.map List.length) := by
  have hlne : walks.map List.length ≠ [] := by
    intro hc
    exact hne (List.map_eq_nil_iff.mp hc)
  have hm := maxLen_mem _ hlne
  have hlt := List.indexOf_lt_length.mpr hm
  have hlt2 : argmaxIdx (walks.map List.length) < walks.length := by
    have := hlt
    rwa [List.length_map] at this
  unfold argmaxIdx at hlt2 ⊢
  rw [List.getD_eq_getElem _ _ hlt2]
  have := List.getElem_indexOf hlt
  rw [List.getElem_map] at this
  exact this

end GNNome

end ThmDecodePrep
section ThmDecode

namespace GNNome

/-- Sampled seed edges are actual sub-graph edges. -/
theorem seeds_mem (subE : List Edge) (P : Nat) (f : Nat → Nat) (hne : subE ≠ []) :
    ∀ e ∈ (List.range P).map (fun k => subE.getD (f k % subE.length) (0, 0, (⊥ : Score))),
      e ∈ subE := by
  intro e he
  rcases List.mem_map.mp he with ⟨k, _, rfl⟩
  have hlt : f k % subE.length < subE.length :=
    Nat.mod_lt _ (List.length_pos.mpr hne)
  rw [List.getD_eq_getElem _ _ hlt]
  exact List.getElem_mem hlt

/-- Every node of every cleaned candidate produced in one iteration lies
outside the consumed set the iteration started from: sanitized walks are
built from buffer entries, which are kept-node images. -/
theorem decodePaths_not_consumed (edges : List Edge) (n P : Nat)
    (oracle : Nat → Nat → Nat) (iter : Nat) (bS : List (List Nat))
    (walks : List (List Nat))
    (h : decodePaths edges n P oracle iter bS = .ok walks) :
    ∀ w ∈ walks, ∀ x ∈ w, x ∉ bS.flatten := by
  unfold decodePaths at h
  simp only [] at h
  split at h
  · cases h
  case isFalse hguard =>
    have hne : subEdgesOf edges (keepListOf n bS.flatten) ≠ [] := by
      intro hc
      exact hguard (by simp [hc])
    have hE := subEdgesOf_lt edges (keepListOf n bS.flatten)
    split at h
    case h_1 s hF => cases h
    case h_2 sF rowsF hF =>
      split at h
      case h_1 s hB => cases h
      case h_2 sB rowsB hB =>
        split at h
        case h_1 e hW => cases h
        case h_2 walks0 hW =>
          cases h
          intro w hw x hx
          rcases compute_walks_mem _ _ hW w hw with ⟨p, hp, hex⟩
          have hxp : x ∈ p := extract_subset _ _ hex x hx
          rcases mem_zipWith_append _ _ p hp with ⟨b, hb, f, hf, rfl⟩
          have hmem : ∃ i, i < (keepListOf n bS.flatten).length ∧
              x = (keepListOf n bS.flatten).getD i 0 := by
            rcases List.mem_append.mp hxp with hxb | hxf
            · rcases List.mem_map.mp hb with ⟨r, hr, rfl⟩
              have hxr : x ∈ r :=
                List.mem_of_mem_take (List.mem_reverse.mp hxb)
              have hclosed : ∀ i, i < (keepListOf n bS.flatten).length →
                  (((List.range (keepListOf n bS.flatten).length).map
                    (bwdSucc (subEdgesOf edges (keepListOf n bS.flatten)))).getD i i)
                    < (keepListOf n bS.flatten).length := by
                intro i hi
                rw [tableD_eq _ _ i hi]
                exact bwdSucc_closure _ _ hE i hi
              have hinits : ∀ c ∈ ((List.range P).map
                  (fun k => (subEdgesOf edges (keepListOf n bS.flatten)).getD
                    (oracle iter k % (subEdgesOf edges (keepListOf n bS.flatten)).length)
                    (0, 0, (⊥ : Score)))).map (fun e => e.1),
                  c < (keepListOf n bS.flatten).length := by
                intro c hc
                rcases List.mem_map.mp hc with ⟨e, he, rfl⟩
                exact (hE e (seeds_mem _ P _ hne e he)).1
              rcases runPhase_rows_mem _ _ P _ _ _ hclosed hinits _ _ hB r hr x hxr
                with ⟨i, hi, rfl⟩
              exact ⟨i, hi, rfl⟩
            · rcases List.mem_map.mp hf with ⟨r, hr, rfl⟩
              have hxr : x ∈ r := List.mem_of_mem_take hxf
              have hclosed : ∀ i, i < (keepListOf n bS.flatten).length →
                  (((List.range (keepListOf n bS.flatten).length).map
                    (fwdSucc (subEdgesOf edges (keepListOf n bS.flatten)))).getD i i)
                    < (keepListOf n bS.flatten).length := by
                intro i hi
                rw [tableD_eq _ _ i hi]
                exact fwdSucc_closure _ _ hE i hi
              have hinits : ∀ c ∈ ((List.range P).map
                  (fun k => (subEdgesOf edges (keepListOf n bS.flatten)).getD
                    (oracle iter k % (subEdgesOf edges (keepListOf n bS.flatten)).length)
                    (0, 0, (⊥ : Score)))).map (fun e => e.2.1),
                  c < (keepListOf n bS.flatten).length := by
                intro c hc
                rcases List.mem_map.mp hc with ⟨e, he, rfl⟩
                exact (hE e (seeds_mem _ P _ hne e he)).2
              rcases runPhase_rows_mem _ _ P _ _ _ hclosed hinits _ _ hF r hr x hxr
                with ⟨i, hi, rfl⟩
              exact ⟨i, hi, rfl⟩
          rcases hmem with ⟨i, hi, rfl⟩
          exact keepListOf_not_consumed n bS.flatten _ (keep_getD_mem _ i hi)

/-- One iteration always produces `P` cleaned candidates. -/
theorem decodePaths_length (edges : List Edge) (n P : Nat)
    (oracle : Nat → Nat → Nat) (iter : Nat) (bS : List (List Nat))
    (walks : List (List Nat))
    (h : decodePaths edges n P oracle iter bS = .ok walks) :
    walks.length = P := by
  unfold decodePaths at h
  simp only [] at h
  split at h
  · cases h
  case isFalse hguard =>
    split at h
    case h_1 s hF => cases h
    case h_2 sF rowsF hF =>
      split at h
      case h_1 s hB => cases h
      case h_2 sB rowsB hB =>
        split at h
        case h_1 e hW => cases h
        case h_2 walks0 hW =>
          cases h
          have hF2 := runPhase_rows_length _ _ _ _ _ _ _ hF
          have hB2 := runPhase_rows_length _ _ _ _ _ _ _ hB
          rw [compute_walks_length _ _ hW, List.length_zipWith, List.length_map,
            List.length_map, hF2, hB2, List.length_map, List.length_map,
            List.length_map, List.length_map, List.length_range, Nat.min_self]

/-- With a nonzero batch size, the candidate batch is nonempty. -/
theorem decodePaths_ne_nil (edges : List Edge) (n P : Nat)
    (oracle : Nat → Nat → Nat) (iter : Nat) (bS : List (List Nat))
    (walks : List (List Nat))
    (h : decodePaths edges n P oracle iter bS = .ok walks) (hP : P ≠ 0) :
    walks ≠ [] := by
  intro hc
  have hl := decodePaths_length _ _ _ _ _ _ _ h
  rw [hc] at hl
  exact hP hl.symm

/-- A successful iteration implies a nonzero batch size (the sampling
guard fires on `nb_paths = 0`). -/
theorem decodePaths_P_pos (edges : List Edge) (n P : Nat)
    (oracle : Nat → Nat → Nat) (iter : Nat) (bS : List (List Nat))
    (walks : List (List Nat))
    (h : decodePaths edges n P oracle iter bS = .ok walks) : P ≠ 0 := by
  unfold decodePaths at h
  simp only [] at h
  split at h
  · cases h
  case isFalse hguard =>
    intro hc
    subst hc
    exact hguard (by simp)

/-- The selected candidate of an iteration avoids the consumed set. -/
theorem decodeStep_best_not_consumed (edges : List Edge) (n P thr : Nat)
    (oracle : Nat → Nat → Nat) (iter : Nat) (bS : List (List Nat))
    (best : List Nat) (lenB : Nat) (stop : Bool)
    (h : decodeStep edges n P thr oracle iter bS = .ok (best, lenB, stop)) :
    ∀ x ∈ best, x ∉ bS.flatten := by
  unfold decodeStep at h
  split at h
  case h_1 e hD => cases h
  case h_2 walks hD =>
    simp only [] at h
    injection h with htup
    have hb := congrArg Prod.fst htup
    simp only [] at hb
    rw [← hb]
    by_cases hlt : argmaxIdx (walks.map List.length) < walks.length
    · rw [List.getD_eq_getElem _ _ hlt]
      exact decodePaths_not_consumed _ _ _ _ _ _ _ hD _ (List.getElem_mem hlt)
    · rw [List.getD_eq_default _ _ (Nat.le_of_not_lt hlt)]
      intro x hx
      cases hx

/-- If an iteration does not stop, the selected walk has cleaned length
at least the threshold: the loop continues only when
`len_best_walk ≥ len_threshold`. -/
theorem decodeStep_continue_len (edges : List Edge) (n P thr : Nat)
    (oracle : Nat → Nat → Nat) (iter : Nat) (bS : List (List Nat))
    (best : List Nat) (lenB : Nat)
    (h : decodeStep edges n P thr oracle iter bS = .ok (best, lenB, false)) :
    thr ≤ best.length := by
  unfold decodeStep at h
  split at h
  case h_1 e hD => cases h
  case h_2 walks hD =>
    simp only [] at h
    have hne : walks ≠ [] :=
      decodePaths_ne_nil _ _ _ _ _ _ _ hD (decodePaths_P_pos _ _ _ _ _ _ _ hD)
    injection h with htup
    have hb := congrArg Prod.fst htup
    have hstop := congrArg (fun t : List Nat × Nat × Bool => t.2.2) htup
    simp only [] at hb hstop
    rw [← hb, best_length_eq walks hne]
    exact Nat.le_of_not_lt (of_decide_eq_false hstop)

end GNNome

end ThmDecode
section ThmLoop

namespace GNNome

/-- In the contig-extraction loop, every accumulated and appended walk
except the very last has length at least the threshold: a walk is only
followed by further iterations when the stopping criterion did not fire. -/
theorem decodeLoop_dropLast_ge (edges : List Edge) (n P thr : Nat)
    (oracle : Nat → Nat → Nat) :
    ∀ fuel iter aW bS aL ws ls,
      (∀ w ∈ aW, thr ≤ w.length) →
      decodeLoop edges n P thr oracle fuel iter aW bS aL = .ok (ws, ls) →
      ∀ w ∈ ws.dropLast, thr ≤ w.length := by
  intro fuel
  induction fuel with
  | zero => intro iter aW bS aL ws ls hacc h; cases h
  | succ f ih =>
    intro iter aW bS aL ws ls hacc h
    simp only [decodeLoop] at h
    split at h
    case h_1 e hD => cases h
    case h_2 best lenB stop hD =>
      split at h
      case isTrue hstop =>
        cases h
        rw [List.dropLast_concat]
        exact hacc
      case isFalse hstop =>
        have hsf : stop = false := by
          revert hstop
          cases stop <;> simp
        have hacc2 : ∀ w ∈ aW ++ [best], thr ≤ w.length := by
          intro w hw
          rcases List.mem_append.mp hw with hw | hw
          · exact hacc w hw
          · rcases List.mem_singleton.mp hw with rfl
            exact decodeStep_continue_len _ _ _ _ _ _ _ _ _ (hsf ▸ hD)
        exact ih _ _ _ _ _ _ hacc2 h

/-- Loop invariant for strand closure: if the accumulated walks are
pairwise strand-disjoint and every accumulated node (with its partner)
is recorded in the consumed both-strands list, the final walk list is
pairwise strand-disjoint. -/
theorem decodeLoop_pairwise (edges : List Edge) (n P thr : Nat)
    (oracle : Nat → Nat → Nat) :
    ∀ fuel iter aW bS aL ws ls,
      List.Pairwise strandDisjoint aW →
      (∀ w ∈ aW, ∀ x ∈ w, x ∈ bS.flatten ∧ x ^^^ 1 ∈ bS.flatten) →
      decodeLoop edges n P thr oracle fuel iter aW bS aL = .ok (ws, ls) →
      List.Pairwise strandDisjoint ws := by
  intro fuel
  induction fuel with
  | zero => intro iter aW bS aL ws ls hpw hcons h; cases h
  | succ f ih =>
    intro iter aW bS aL ws ls hpw hcons h
    simp only [decodeLoop] at h
    split at h
    case h_1 e hD => cases h
    case h_2 best lenB stop hD =>
      have hnc := decodeStep_best_not_consumed _ _ _ _ _ _ _ _ _ _ hD
      have hpw2 : List.Pairwise strandDisjoint (aW ++ [best]) := by
        rw [List.pairwise_append]
        refine ⟨hpw, List.pairwise_singleton _ _, ?_⟩
        intro w hw b hb
        rcases List.mem_singleton.mp hb with rfl
        intro x hx
        constructor
        · intro hxb
          exact hnc x hxb (hcons w hw x hx).1
        · intro hxb
          exact hnc _ hxb (hcons w hw x hx).2
      split at h
      case isTrue hstop =>
        cases h
        exact hpw2
      case isFalse hstop =>
        have hcons2 : ∀ w ∈ aW ++ [best], ∀ x ∈ w,
            x ∈ (bS ++ [best, best.map (fun y => y ^^^ 1)]).flatten ∧
            x ^^^ 1 ∈ (bS ++ [best, best.map (fun y => y ^^^ 1)]).flatten := by
          intro w hw x hx
          rcases List.mem_append.mp hw with hw | hw
          · have hold := hcons w hw x hx
            constructor
            · exact List.mem_flatten.mpr
                (by rcases List.mem_flatten.mp hold.1 with ⟨l, hl, hxl⟩
                    exact ⟨l, List.mem_append_left _ hl, hxl⟩)
            · exact List.mem_flatten.mpr
                (by rcases List.mem_flatten.mp hold.2 with ⟨l, hl, hxl⟩
                    exact ⟨l, List.mem_append_left _ hl, hxl⟩)
          · rcases List.mem_singleton.mp hw with rfl
            constructor
            · exact List.mem_flatten.mpr ⟨w, by simp, hx⟩
            · exact List.mem_flatten.mpr
                ⟨w.map (fun y => y ^^^ 1), by simp, List.mem_map.mpr ⟨x, hx, rfl⟩⟩
        exact ih _ _ _ _ _ _ hpw2 hcons2 h

end GNNome

end ThmLoop
section ThmMerge

namespace GNNome

/-- When every joint reachable from `comp` inside `larger` is dead
(no out-neighbours), the pair is never joinable. -/
theorem joinable_eq_false_of (nbrs : Nat → List Nat) (c l : Finset Nat)
    (h : ∀ node ∈ c, ∀ joint ∈ l, joint ∈ nbrs node → nbrs joint = []) :
    joinable nbrs c l = false := by
  unfold joinable
  rw [Bool.eq_false_iff]
  intro hcontra
  rcases of_decide_eq_true hcontra with ⟨node, hnode, hin⟩
  rw [List.any_eq_true] at hin
  rcases hin with ⟨joint, hjm, hj⟩
  rw [Bool.and_eq_true] at hj
  have hjl : joint ∈ l := of_decide_eq_true hj.1
  have hdead := h node hnode joint hjl hjm
  rw [hdead] at hj
  simp at hj

/-- A live joint reachable from `comp` inside `larger` makes the pair
joinable. -/
theorem joinable_eq_true_of (nbrs : Nat → List Nat) (c l : Finset Nat)
    (h : ∃ node ∈ c, ∃ joint ∈ l, joint ∈ nbrs node ∧ nbrs joint ≠ []) :
    joinable nbrs c l = true := by
  rcases h with ⟨node, hn, joint, hjl, hjn, hne⟩
  unfold joinable
  apply decide_eq_true
  refine ⟨node, hn, ?_⟩
  rw [List.any_eq_true]
  refine ⟨joint, hjn, ?_⟩
  rw [Bool.and_eq_true]
  refine ⟨decide_eq_true hjl, ?_⟩
  simp [List.isEmpty_iff, hne]

/-- Sorting a two-component list by cardinality (stable: ties keep the
original order). -/
theorem sortByCard_pair (c1 c2 : Finset Nat) :
    sortByCard [c1, c2] = if c1.card ≤ c2.card then [c1, c2] else [c2, c1] := by
  simp only [sortByCard, List.foldr_cons, List.foldr_nil, insertByCard]

/-- On exactly two components all of whose crossing joints are dead, the
merge pass is the identity (up to the sort it performs). -/
theorem merge_two_none (nbrs : Nat → List Nat) (c1 c2 : Finset Nat)
    (hdead : ∀ node joint, ((node ∈ c1 ∧ joint ∈ c2) ∨ (node ∈ c2 ∧ joint ∈ c1)) →
      joint ∈ nbrs node → nbrs joint = []) :
    get_components_merge nbrs [c1, c2] = if c1.card ≤ c2.card then [c1, c2] else [c2, c1] := by
  have h12 : joinable nbrs c1 c2 = false :=
    joinable_eq_false_of _ _ _ (fun node hn joint hj => hdead node joint (Or.inl ⟨hn, hj⟩))
  have h21 : joinable nbrs c2 c1 = false :=
    joinable_eq_false_of _ _ _ (fun node hn joint hj => hdead node joint (Or.inr ⟨hn, hj⟩))
  show mergeLoop nbrs 2 [c1, c2] = _
  by_cases hle : c1.card ≤ c2.card
  · rw [if_pos hle]
    simp only [mergeLoop, mergeRound, sortByCard_pair, if_pos hle, findJoin, h12]
    rfl
  · rw [if_neg hle]
    simp only [mergeLoop, mergeRound, sortByCard_pair, if_neg hle, findJoin, h21]
    rfl

/-- On exactly two components where some node of the smaller one has a
live joint inside the larger one, the merge pass joins them into their
union and reaches a fixed point. -/
theorem merge_two_join (nbrs : Nat → List Nat) (c1 c2 : Finset Nat)
    (hle : c1.card ≤ c2.card)
    (hjoin : ∃ node ∈ c1, ∃ joint ∈ c2, joint ∈ nbrs node ∧ nbrs joint ≠ []) :
    get_components_merge nbrs [c1, c2] = [c1 ∪ c2] := by
  have hj := joinable_eq_true_of nbrs c1 c2 hjoin
  show mergeLoop nbrs 2 [c1, c2] = _
  simp only [mergeLoop, mergeRound, sortByCard_pair, if_pos hle, findJoin, hj, if_pos trivial]
  simp [sortByCard, insertByCard, findJoin, List.erase_cons_head]

end GNNome

end ThmMerge
section ThmCycleCount

namespace GNNome

/-- The cyclic and non-cyclic row counts of a batch partition it. -/
theorem countP_cycle_complement (rows : List (List Nat)) (W nb : Nat) :
    rows.countP (fun r => decide ((fullRow W r).dedup.length < nb))
      + rows.countP (fun r => decide (nb ≤ (fullRow W r).dedup.length)) = rows.length := by
  induction rows with
  | nil => rfl
  | cons r t ih =>
    by_cases hlt : (fullRow W r).dedup.length < nb
    · rw [List.countP_cons_of_pos _ _ (by simp only [decide_eq_true_eq]; exact hlt),
        List.countP_cons_of_neg _ _ (by simp only [decide_eq_true_eq]; exact Nat.not_le.mpr hlt)]
      simp only [List.length_cons]
      omega
    · rw [List.countP_cons_of_neg _ _ (by simp only [decide_eq_true_eq]; exact hlt),
        List.countP_cons_of_pos _ _
          (by simp only [decide_eq_true_eq]; exact Nat.le_of_not_lt hlt)]
      simp only [List.length_cons]
      omega

end GNNome

end ThmCycleCount
section ThmClaims

namespace GNNome

/-- C1 counterexample: a run of the contig-extraction loop on a 10-node
graph with one real edge `0 → 1` (score 5), batch size 1, threshold 10.
The only iteration selects the cleaned walk `[0, 1]` of length `2 < 10`,
appends it to `all_walks`, and only then the stopping criterion fires —
so the returned list contains a walk strictly below the threshold,
refuting the claim that every returned walk has sanitized length at
least `len_threshold`. -/
theorem c1_counterexample :
    parallel_greedy_decoding ⟨10, [(0, 1, 5)]⟩ 1 10 (fun _ _ => 0) 2
      = .ok ([[0, 1]], [2]) ∧ ¬ (10 ≤ ([0, 1] : List Nat).length) := by
  decide

/-- C1 amended: every walk of the returned list EXCEPT the final one has
sanitized length at least `len_threshold`; the candidate that triggers
termination is appended before the criterion is checked, so the last
returned walk may be arbitrarily short (including empty). -/
theorem c1_amended_threshold (g : Graph) (P thr : Nat) (oracle : Nat → Nat → Nat)
    (fuel : Nat) (ws : List (List Nat)) (ls : List Nat)
    (h : parallel_greedy_decoding g P thr oracle fuel = .ok (ws, ls)) :
    ∀ w ∈ ws.dropLast, thr ≤ w.length :=
  decodeLoop_dropLast_ge (selfLooped g) g.n P thr oracle fuel 1 [] [] [] ws ls
    (fun w hw => absurd hw (List.not_mem_nil w)) h

/-- Witness for the amended C1 theorem at a run that accepts two length-2
walks before terminating on an empty candidate: the first accepted walk
is a non-final member of the returned list and meets the threshold. -/
theorem c1_amended_threshold_witness :
    2 ≤ ([0, 1] : List Nat).length :=
  c1_amended_threshold ⟨8, [(0, 1, 5), (4, 5, 5)]⟩ 1 2 (fun _ _ => 0) 4
    [[0, 1], [4, 5], []] [2, 2, 0] (by decide) [0, 1] (by decide)

/-- C2: the in-bounds claim fails — the loop guard admits
`nb_steps = n_sub_g//2 - 1`, and that final iteration increments
`nb_steps` and writes column `n_sub_g//2` of the width-`n_sub_g//2`
buffer.  On a 4-node graph whose two real edges form the 2-cycle
`0 ↔ 1`, the forward phase walks the cycle, never sticks, reaches the
budget, and the write at column 2 of the width-2 buffer raises
`IndexError`; the whole decoding run aborts. -/
theorem c2_buffer_overflow_eval :
    parallel_greedy_decoding ⟨4, [(0, 1, 5), (1, 0, 5)]⟩ 1 10 (fun _ _ => 0) 3
      = .error .indexError := by
  decide

/-- C3 counterexample: sanitizing `[1, 2, 1]` does NOT yield the empty
walk, refuting the claim — the duplicate multiset is shared between the
two flank extractions, so after the left pattern consumes the value 1 the
right pattern is empty and the length check passes. -/
theorem c3_counterexample :
    ¬ (extract_non_duplicate_walk [1, 2, 1] = .ok []) := by
  decide

/-- C3 amended: sanitizing the raw walk `[1, 2, 1]` yields `[1, 2]` —
central run `[2]`, left pattern `[1]` consuming the only duplicate value,
right pattern empty because the duplicate multiset is exhausted, and the
final length check `2 = 2` passes. -/
theorem c3_amended_value :
    extract_non_duplicate_walk [1, 2, 1] = .ok [1, 2] := by
  decide

set_option maxRecDepth 10000 in
/-- C4 counterexample: a phase over a 204-node sub-graph (budget
`204 // 2 = 102`) whose single walk follows the path `0 → 1 → ⋯`.  At the
step-100 cycle check the walk's padded buffer row has 102 distinct values
(not behind the step count: the walk is NOT cyclic), and its greedy
successor still moves (`succ 100 = 101 ≠ 100`, no dead end), yet the
phase terminates at step `100 < 102`: `flag_cycles` starts from the
integer value of `True`, so with one walk the accumulated value `1 + 0`
is never `< nb_paths = 1` and the cycle criterion fires, refuting the
claim that one non-cyclic walk keeps the phase stepping. -/
theorem c4_counterexample :
    runPhase (fun i => c4T.getD i i) (fun i => i) 1 204 [0] = .ok 100 [List.range 101] ∧
    100 < 204 / 2 ∧
    100 ≤ (fullRow (204 / 2) (List.range 101)).dedup.length ∧
    c4T.getD 100 100 ≠ 100 := by
  decide

/-- C4 amended: the periodic check keeps the phase stepping only when at
least TWO of the `nb_paths` walks have distinct-node counts that did not
fall behind; because `flag_cycles` enters the check as `True` (= 1), the
accumulated sum reaches `nb_paths` as soon as all but one walk are
cyclic, so a single non-cyclic walk cannot prevent termination but two
can. -/
theorem c4_amended_cycle_guard (P W nb : Nat) (rows : List (List Nat))
    (hrows : rows.length = P)
    (hnc : 2 ≤ rows.countP (fun r => decide (nb ≤ (fullRow W r).dedup.length))) :
    cycleFlag P W rows nb = true := by
  have hcc := countP_cycle_complement rows W nb
  unfold cycleFlag
  apply decide_eq_true
  omega

/-- Witness for the amended C4 theorem: two non-cyclic rows at a check
with `nb = 5` keep the flag true. -/
theorem c4_amended_cycle_guard_witness :
    cycleFlag 2 6 [[0, 1, 2, 3, 4, 5], [10, 11, 12, 13, 14, 15]] 5 = true :=
  c4_amended_cycle_guard 2 6 5 [[0, 1, 2, 3, 4, 5], [10, 11, 12, 13, 14, 15]]
    (by decide) (by decide)

/-- C5: on a single-node sub-graph the seeding does not short-circuit:
`n_sub_g // 2 = 0`, the step buffer is allocated with width 0, and the
write of the start nodes into column 0 raises `IndexError` — the run
aborts instead of producing an empty or single-node walk. -/
theorem c5_single_node_eval :
    parallel_greedy_decoding ⟨1, []⟩ 1 5 (fun _ _ => 0) 2 = .error .indexError := by
  decide

/-- C6: for every sub-graph size, batch size, greedy table, index map and
seed nodes, a routing phase executes at most `n_sub_g // 2` stepping
iterations, whether it ends by the dead-end flag, the cycle flag, the
budget guard, or the out-of-bounds write. -/
theorem c6_router_step_budget (succ mp : Nat → Nat) (P nSub : Nat) (inits : List Nat) :
    (runPhase succ mp P nSub inits).steps ≤ nSub / 2 :=
  runPhase_steps_le succ mp P nSub inits

/-- C7 counterexample: the sanitizer is not the identity on the
duplicate-free walk `[5]` — `squeeze()` turns the length-1 tensor into a
0-dimensional one and `size(0)` raises, so no walk is returned. -/
theorem c7_counterexample :
    ¬ (extract_non_duplicate_walk [5] = .ok [5]) := by
  decide

/-- C7 amended: on every duplicate-free raw walk of length other than 1
the sanitizer returns its input unchanged; length-1 walks raise instead
(the `squeeze()` artifact). -/
theorem c7_sanitizer_identity (w : List Nat) (hnd : w.Nodup) (hlen : w.length ≠ 1) :
    extract_non_duplicate_walk w = .ok w :=
  extract_id_of_nodup w hnd hlen

/-- Witness for the amended C7 theorem on a concrete clean walk. -/
theorem c7_sanitizer_identity_witness :
    extract_non_duplicate_walk [3, 7, 9] = .ok [3, 7, 9] :=
  c7_sanitizer_identity [3, 7, 9] (by decide) (by decide)

/-- C8: strand closure of the contig-extraction loop — whenever
`parallel_greedy_decoding` returns, the accepted walks are pairwise
strand-disjoint: no node of an earlier walk, nor its partner `n ^^^ 1`,
occurs in any later walk, because each accepted walk and its partner
image are added to the consumed list used to build every later
sub-graph. -/
theorem c8_strand_closure (g : Graph) (P thr : Nat) (oracle : Nat → Nat → Nat)
    (fuel : Nat) (ws : List (List Nat)) (ls : List Nat)
    (h : parallel_greedy_decoding g P thr oracle fuel = .ok (ws, ls)) :
    List.Pairwise strandDisjoint ws :=
  decodeLoop_pairwise (selfLooped g) g.n P thr oracle fuel 1 [] [] [] ws ls
    List.Pairwise.nil (fun w hw => absurd hw (List.not_mem_nil w)) h

/-- Witness for C8 at a run accepting two disjoint walks and a final
empty one. -/
theorem c8_strand_closure_witness :
    List.Pairwise strandDisjoint [[0, 1], [4, 5], ([] : List Nat)] :=
  c8_strand_closure ⟨8, [(0, 1, 5), (4, 5, 5)]⟩ 1 2 (fun _ _ => 0) 4
    [[0, 1], [4, 5], []] [2, 2, 0] (by decide)

/-- C9 counterexample: components `{0}` and `{1, 2}` share the joint
node 0 — the edge `1 → 0` crosses from the larger component into the
smaller — and the joint is live (`neighbors[0] = [5] ≠ []`), yet the
merge pass does not merge them: the code only scans out-neighbours of
the SMALLEST component, and node 0's out-neighbour 5 is in neither
component.  This refutes the claim that two components sharing a joint
node with an out-neighbour are always merged. -/
theorem c9_counterexample :
    get_components_merge (fun m => if m = 1 then [0] else if m = 0 then [5] else [])
        [{0}, {1, 2}] = [{0}, ({1, 2} : Finset Nat)] ∧
    (0 ∈ (if (1 : Nat) = 1 then [0] else if (1 : Nat) = 0 then [5] else [])) ∧
    (0 ∈ ({0} : Finset Nat)) ∧
    (if (0 : Nat) = 1 then ([0] : List Nat) else if (0 : Nat) = 0 then [5] else []) ≠ [] := by
  decide

/-- C9 amended: (a) two components whose every crossing joint is dead
are never merged (the skip branch is always taken); (b) two components
are merged into their union exactly when some node of the SMALLEST one
(stable sort by size; ties keep insertion order) has, among its
out-neighbours inside the larger one, a joint node with at least one
out-neighbour — a live joint reachable only from the larger component
does not trigger a merge. -/
theorem c9_amended_merge :
    (∀ (nbrs : Nat → List Nat) (c1 c2 : Finset Nat),
        (∀ node joint, ((node ∈ c1 ∧ joint ∈ c2) ∨ (node ∈ c2 ∧ joint ∈ c1)) →
          joint ∈ nbrs node → nbrs joint = []) →
        get_components_merge nbrs [c1, c2]
          = if c1.card ≤ c2.card then [c1, c2] else [c2, c1]) ∧
    (∀ (nbrs : Nat → List Nat) (c1 c2 : Finset Nat),
        c1.card ≤ c2.card →
        (∃ node ∈ c1, ∃ joint ∈ c2, joint ∈ nbrs node ∧ nbrs joint ≠ []) →
        get_components_merge nbrs [c1, c2] = [c1 ∪ c2]) :=
  ⟨merge_two_none, merge_two_join⟩

/-- Witness for the amended C9 theorem: a live joint reachable from the
smaller component merges the pair into a single component. -/
theorem c9_amended_merge_witness :
    get_components_merge (fun m => if m = 0 then [1] else if m = 1 then [9] else [])
      [{0}, {1, 2}] = [({0} : Finset Nat) ∪ {1, 2}] :=
  c9_amended_merge.2 (fun m => if m = 0 then [1] else if m = 1 then [9] else [])
    {0} {1, 2} (by decide) (by decide)

/-- C10: when every value of the raw walk occurs more than once there is
no singleton central part, and the sanitizer signals this by returning
the empty walk — no exception, no partial walk. -/
theorem c10_all_duplicate_empty (w : List Nat) (h : ∀ x ∈ w, w.count x ≠ 1) :
    extract_non_duplicate_walk w = .ok [] :=
  extract_all_duplicate w h

/-- Witness for C10 on a concrete all-duplicate walk. -/
theorem c10_all_duplicate_empty_witness :
    extract_non_duplicate_walk [4, 4, 7, 7, 4] = .ok [] :=
  c10_all_duplicate_empty [4, 4, 7, 7, 4] (by decide)

end GNNome

end ThmClaims
